import Mathlib

/-!
Verification of the pyo3-arraylike boundary adapter against its design
specification. The repository ships the adapter as a compiled extension;
the visible Python sources only call it. Each definition below is therefore
modelled from the specification text (sections 3, 4, 6 and 7 of spec.md) and
the behaviour of the example callers, and the theorems settle the specified
properties against that model.
-/

namespace PyO3ArrayLike

/-- The exclusive upper bound of the unsigned 32-bit target domain. -/
def U32_BOUND : Nat := 2 ^ 32

/-- Modelled from the spec: the error taxonomy of section 7. Missing from the
visible sources: the ErrorKind sum type of the compiled adapter.
WrongRank marks input that is not exactly two-dimensional, Jagged marks rows
of unequal length, CastError marks a scalar not representable as u32. -/
inductive ErrorKind where
  | wrongRank (expected got : Nat)
  | jagged (rowIndex expectedCols gotCols : Nat)
  | castError (value : ℚ) (rowIndex colIndex : Nat)
deriving Repr, DecidableEq

instance {ε α : Type _} [DecidableEq ε] [DecidableEq α] :
    DecidableEq (Except ε α) := fun a b =>
  match a, b with
  | Except.error e, Except.error f =>
    if h : e = f then Decidable.isTrue (congrArg Except.error h)
    else Decidable.isFalse (fun hh => h (Except.error.inj hh))
  | Except.error _, Except.ok _ => Decidable.isFalse (fun hh => Except.noConfusion hh)
  | Except.ok _, Except.error _ => Decidable.isFalse (fun hh => Except.noConfusion hh)
  | Except.ok x, Except.ok y =>
    if h : x = y then Decidable.isTrue (congrArg Except.ok h)
    else Decidable.isFalse (fun hh => h (Except.ok.inj hh))

/-- Modelled from the spec: one element yielded by the outer sequence on the
generic path (section 4.3). Missing from the visible sources: the closed
variant classification of row representations. A row is either a bare scalar
(illegal, wrong rank), a plain sequence of scalars, a single-pass iterator of
scalars, or a typed one-dimensional signed 64-bit buffer. Scalars are modelled
as rationals so that non-integral values are representable. -/
inductive OuterElem where
  | scalar (x : ℚ)
  | seqRow (xs : List ℚ)
  | iterRow (xs : List ℚ)
  | bufRow (xs : List ℤ)
deriving Repr

/-- Modelled from the spec: the InputValue of section 3 after classification
(section 4.1). Missing from the visible sources: the classifier of the
compiled adapter. A value either exposes a native contiguous two-dimensional
unsigned 32-bit buffer (zero-copy compatible) or is a finite outer sequence
handled by the generic path. -/
inductive InputValue where
  | nativeBuffer (data : List (List Nat))
  | sequence (elems : List OuterElem)
deriving Repr

/-- Modelled from the spec: the MatrixView of section 3. Borrowed keeps
ownership with the original value, Owned is a freshly materialized buffer. -/
inductive MatrixView where
  | borrowed (data : List (List Nat))
  | owned (data : List (List Nat))
deriving Repr, DecidableEq

/-- The logical rectangle of elements held by a view. -/
def MatrixView.data : MatrixView → List (List Nat)
  | .borrowed d => d
  | .owned d => d

/-- Modelled from the spec: the Safe-Cast Validator of section 4.4. Missing
from the visible sources: the per-scalar cast check of the compiled adapter.
It succeeds exactly when the scalar is integral-valued, non-negative and
below 2 ^ 32, and returns the unchanged value; otherwise it rejects. -/
def safeCast (x : ℚ) : Option Nat :=
  if x.den = 1 ∧ 0 ≤ x.num ∧ x.num < (U32_BOUND : ℤ) then some x.num.toNat
  else none

/-- The validator step at a given row and column: a rejected scalar carries
its value and position into the CastError (section 4.3 step 5). -/
def castScalar (i j : Nat) (x : ℚ) : Except ErrorKind Nat :=
  match safeCast x with
  | some n => Except.ok n
  | none => Except.error (ErrorKind.castError x i j)

/-- Validate the scalars of row i, starting at column j. The first rejected
scalar aborts the row. -/
def castRowAux (i : Nat) : Nat → List ℚ → Except ErrorKind (List Nat)
  | _, [] => Except.ok []
  | j, x :: xs =>
    match castScalar i j x with
    | Except.error e => Except.error e
    | Except.ok n =>
      match castRowAux i (j + 1) xs with
      | Except.error e => Except.error e
      | Except.ok ns => Except.ok (n :: ns)

/-- Validate all scalars of row i. -/
def castRow (i : Nat) (xs : List ℚ) : Except ErrorKind (List Nat) :=
  castRowAux i 0 xs

/-- The exact rational images of a list of signed 64-bit integers. -/
def intsToRats (zs : List ℤ) : List ℚ :=
  zs.map (fun z : ℤ => (z : ℚ))

/-- The exact rational images of a list of machine naturals. -/
def natsToRats (ns : List Nat) : List ℚ :=
  ns.map (fun n : Nat => (n : ℚ))

/-- The scalars yielded by one outer element, or none for a bare scalar
(which is not further iterable). A typed signed 64-bit buffer row yields its
elements as exact numeric values. -/
def OuterElem.rowScalars : OuterElem → Option (List ℚ)
  | .scalar _ => none
  | .seqRow xs => some xs
  | .iterRow xs => some xs
  | .bufRow xs => some (intsToRats xs)

/-- Modelled from the spec: materialization of one row (section 4.3 steps
3 to 5). A bare scalar element is wrong rank; a row of divergent length is
jagged; otherwise every scalar passes the validator. -/
def materializeRow (cols i : Nat) (e : OuterElem) : Except ErrorKind (List Nat) :=
  match e.rowScalars with
  | none => Except.error (ErrorKind.wrongRank 2 1)
  | some xs =>
    if xs.length = cols then castRow i xs
    else Except.error (ErrorKind.jagged i cols xs.length)

/-- Materialize the rows after the first, one row at a time, with the column
count fixed by the first row. -/
def materializeRest (cols : Nat) : Nat → List OuterElem → Except ErrorKind (List (List Nat))
  | _, [] => Except.ok []
  | i, e :: rest =>
    match materializeRow cols i e with
    | Except.error err => Except.error err
    | Except.ok r =>
      match materializeRest cols (i + 1) rest with
      | Except.error err => Except.error err
      | Except.ok rs => Except.ok (r :: rs)

/-- Modelled from the spec: the Generic Sequence Materializer of section 4.3.
Missing from the visible sources: the fallback conversion of the compiled
adapter. The first row fixes the column count; every element is consumed
exactly once in order; errors abort materialization immediately. -/
def materialize : List OuterElem → Except ErrorKind (List (List Nat))
  | [] => Except.ok []
  | e :: rest =>
    match e.rowScalars with
    | none => Except.error (ErrorKind.wrongRank 2 1)
    | some xs =>
      match castRow 0 xs with
      | Except.error err => Except.error err
      | Except.ok r =>
        match materializeRest xs.length 1 rest with
        | Except.error err => Except.error err
        | Except.ok rs => Except.ok (r :: rs)

/-- Modelled from the spec: Dispatch (section 4.5) combined with the
Zero-Copy Adapter (section 4.2). A classified-compatible native buffer is
wrapped as a Borrowed view over its own data; a generic sequence is
materialized into an Owned view. -/
def dispatch : InputValue → Except ErrorKind MatrixView
  | .nativeBuffer data => Except.ok (MatrixView.borrowed data)
  | .sequence elems => (materialize elems).map MatrixView.owned

/-- Modelled from the spec: the external kernel (section 6), a trivial
row-wise summation over a validated view. -/
def kernel (mv : MatrixView) : List Nat :=
  mv.data.map List.sum

/-- Modelled from the spec: the public entry point aggregate_rows
(sum_of_rows in the example callers), section 6. -/
def aggregateRows (v : InputValue) : Except ErrorKind (List Nat) :=
  (dispatch v).map kernel

/-- A scalar is integral-valued and inside the closed range from 0 to
2 ^ 32 - 1: the success condition stated by section 4.4. -/
def integralInRange (x : ℚ) : Prop :=
  ∃ m : ℤ, (m : ℚ) = x ∧ 0 ≤ m ∧ m ≤ (U32_BOUND : ℤ) - 1

/-- Every scalar of the row passes the validator. -/
def castableRow (xs : List ℚ) : Prop :=
  ∀ x ∈ xs, (safeCast x).isSome

/-- A good row with respect to a column count: the element yields exactly the
rational images of a list of in-range machine naturals. -/
def goodRow (cols : Nat) (e : OuterElem) (r : List Nat) : Prop :=
  e.rowScalars = some (natsToRats r) ∧ r.length = cols ∧
    ∀ v ∈ r, v < U32_BOUND

/-- Modelled from the spec: a single-pass iterator as the generic path sees
it (section 9, design note on non-restartable iterators). firstPass is the
sequence of scalars yielded by the one permitted traversal; restart is
whatever a hypothetical second traversal would yield (empty for an exhausted
iterator, but left arbitrary so that theorems can show it is never
consulted). -/
structure OneShotIter where
  firstPass : List ℚ
  restart : List ℚ
deriving Repr

/-- Modelled from the spec: outer elements of the generic path with
instrumented single-pass iterators. -/
inductive InstrElem where
  | scalar (x : ℚ)
  | seqRow (xs : List ℚ)
  | iterRow (it : OneShotIter)
  | bufRow (xs : List ℤ)
deriving Repr

/-- The observation one complete pass makes of an instrumented element. -/
def InstrElem.consume : InstrElem → OuterElem
  | .scalar x => OuterElem.scalar x
  | .seqRow xs => OuterElem.seqRow xs
  | .iterRow it => OuterElem.iterRow it.firstPass
  | .bufRow xs => OuterElem.bufRow xs

/-- The scalars yielded by one instrumented element: an iterator row yields
its first and only pass. -/
def InstrElem.rowScalars : InstrElem → Option (List ℚ)
  | .scalar _ => none
  | .seqRow xs => some xs
  | .iterRow it => some it.firstPass
  | .bufRow xs => some (intsToRats xs)

/-- Materialization of one instrumented row, mirroring materializeRow. -/
def materializeRowInstr (cols i : Nat) (e : InstrElem) : Except ErrorKind (List Nat) :=
  match e.rowScalars with
  | none => Except.error (ErrorKind.wrongRank 2 1)
  | some xs =>
    if xs.length = cols then castRow i xs
    else Except.error (ErrorKind.jagged i cols xs.length)

/-- Materialization of the instrumented rows after the first. -/
def materializeRestInstr (cols : Nat) : Nat → List InstrElem → Except ErrorKind (List (List Nat))
  | _, [] => Except.ok []
  | i, e :: rest =>
    match materializeRowInstr cols i e with
    | Except.error err => Except.error err
    | Except.ok r =>
      match materializeRestInstr cols (i + 1) rest with
      | Except.error err => Except.error err
      | Except.ok rs => Except.ok (r :: rs)

/-- Modelled from the spec: the Generic Sequence Materializer running over
instrumented single-pass elements; each element is consumed exactly once,
in order, and an iterator is read only on its first pass. -/
def materializeInstr : List InstrElem → Except ErrorKind (List (List Nat))
  | [] => Except.ok []
  | e :: rest =>
    match e.rowScalars with
    | none => Except.error (ErrorKind.wrongRank 2 1)
    | some xs =>
      match castRow 0 xs with
      | Except.error err => Except.error err
      | Except.ok r =>
        match materializeRestInstr xs.length 1 rest with
        | Except.error err => Except.error err
        | Except.ok rs => Except.ok (r :: rs)

lemma den_one_num_cast (x : ℚ) (h : x.den = 1) : (x.num : ℚ) = x := by
  have hx := Rat.num_div_den x
  rw [h] at hx
  simpa using hx

lemma safeCast_eq_some_iff (x : ℚ) (n : ℕ) :
    safeCast x = some n ↔ ((n : ℚ) = x ∧ n < U32_BOUND) := by
  constructor
  · intro h
    unfold safeCast at h
    split at h
    · rename_i hc
      obtain ⟨hd, h0, h1⟩ := hc
      have hn : x.num.toNat = n := Option.some.inj h
      have hcast : ((x.num.toNat : ℕ) : ℚ) = x := by
        rw [show ((x.num.toNat : ℕ) : ℚ) = ((x.num.toNat : ℤ) : ℚ) by push_cast; ring,
          Int.toNat_of_nonneg h0, den_one_num_cast x hd]
      constructor
      · rw [← hn]; exact hcast
      · omega
    · exact absurd h (by simp)
  · rintro ⟨hnx, hb⟩
    have hd : x.den = 1 := by rw [← hnx]; exact Rat.den_natCast n
    have hnum : x.num = (n : ℤ) := by rw [← hnx]; exact Rat.num_natCast n
    unfold safeCast
    rw [if_pos ⟨hd, by rw [hnum]; exact_mod_cast Nat.zero_le n,
      by rw [hnum]; exact_mod_cast hb⟩]
    rw [hnum]
    simp

lemma safeCast_natCast (n : ℕ) (h : n < U32_BOUND) : safeCast (n : ℚ) = some n :=
  (safeCast_eq_some_iff _ n).mpr ⟨rfl, h⟩

lemma safeCast_isSome_iff (x : ℚ) : (safeCast x).isSome ↔ integralInRange x := by
  constructor
  · intro h
    obtain ⟨n, hn⟩ := Option.isSome_iff_exists.mp h
    obtain ⟨hnx, hb⟩ := (safeCast_eq_some_iff x n).mp hn
    exact ⟨(n : ℤ), by exact_mod_cast hnx, by exact_mod_cast Nat.zero_le n, by omega⟩
  · rintro ⟨m, hmx, h0, h1⟩
    have : safeCast x = some m.toNat := by
      refine (safeCast_eq_some_iff x m.toNat).mpr ⟨?_, by omega⟩
      rw [show ((m.toNat : ℕ) : ℚ) = ((m.toNat : ℤ) : ℚ) by push_cast; ring,
        Int.toNat_of_nonneg h0, hmx]
    simp [this]

lemma castRowAux_ok_of_some (i : Nat) (xs : List ℚ) (ns : List Nat)
    (h : List.Forall₂ (fun x n => safeCast x = some n) xs ns) :
    ∀ j, castRowAux i j xs = Except.ok ns := by
  induction h with
  | nil => intro j; rfl
  | @cons x n xs' ns' hx _ ih =>
    intro j
    simp only [castRowAux, castScalar, hx, ih (j + 1)]

lemma natsToRats_forall_two (ns : List Nat) (h : ∀ v ∈ ns, v < U32_BOUND) :
    List.Forall₂ (fun x n => safeCast x = some n) (natsToRats ns) ns := by
  induction ns with
  | nil => exact List.Forall₂.nil
  | cons n ns ih =>
    exact List.Forall₂.cons (safeCast_natCast n (h n (List.mem_cons_self n ns)))
      (ih fun v hv => h v (List.mem_cons_of_mem n hv))

lemma castRowAux_ok_of_natCast (i : Nat) (ns : List Nat) (h : ∀ v ∈ ns, v < U32_BOUND) :
    ∀ j, castRowAux i j (natsToRats ns) = Except.ok ns :=
  castRowAux_ok_of_some i (natsToRats ns) ns (natsToRats_forall_two ns h)

lemma castRowAux_ok_of_castable (i : Nat) (xs : List ℚ) (h : castableRow xs) :
    ∀ j, ∃ ns : List Nat, castRowAux i j xs = Except.ok ns := by
  induction xs with
  | nil => intro j; exact ⟨[], rfl⟩
  | cons x xs ih =>
    intro j
    obtain ⟨n, hn⟩ := Option.isSome_iff_exists.mp (h x (List.mem_cons_self x xs))
    obtain ⟨ns, hns⟩ := ih (fun y hy => h y (List.mem_cons_of_mem x hy)) (j + 1)
    exact ⟨n :: ns, by simp only [castRowAux, castScalar, hn, hns]⟩

lemma castRowAux_error_of_bad (i : Nat) (xs : List ℚ) (h : ∃ x ∈ xs, safeCast x = none) :
    ∀ j, ∃ (v : ℚ) (k : Nat), xs[k]? = some v ∧ safeCast v = none ∧
      castRowAux i j xs = Except.error (ErrorKind.castError v i (j + k)) := by
  induction xs with
  | nil => exact absurd h (by simp)
  | cons x xs ih =>
    intro j
    rcases hx : safeCast x with _ | n
    · exact ⟨x, 0, by simp, hx,
        by simp only [castRowAux, castScalar, hx, Nat.add_zero]⟩
    · have hbad : ∃ y ∈ xs, safeCast y = none := by
        rcases h with ⟨y, hy, hynone⟩
        rcases List.mem_cons.mp hy with rfl | hy'
        · rw [hx] at hynone; exact absurd hynone (by simp)
        · exact ⟨y, hy', hynone⟩
      obtain ⟨v, k, hget, hnone, herr⟩ := ih hbad (j + 1)
      refine ⟨v, k + 1, by simpa using hget, hnone, ?_⟩
      simp only [castRowAux, castScalar, hx, herr]
      congr 1
      congr 1
      omega

lemma materializeRest_ok (cols : Nat) (elems : List OuterElem) (ns : List (List Nat))
    (h : List.Forall₂ (goodRow cols) elems ns) :
    ∀ i, materializeRest cols i elems = Except.ok ns := by
  induction h with
  | nil => intro i; rfl
  | @cons e r elems' ns' he _ ih =>
    intro i
    obtain ⟨hsc, hlen, hbound⟩ := he
    have hcast : castRow i (natsToRats r) = Except.ok r :=
      castRowAux_ok_of_natCast i r hbound 0
    have hlen' : (natsToRats r).length = cols := by
      rw [natsToRats, List.length_map, hlen]
    simp only [materializeRest, materializeRow, hsc, hlen', if_pos,
      hcast, ih (i + 1)]

lemma materialize_ok (cols : Nat) (elems : List OuterElem) (ns : List (List Nat))
    (h : List.Forall₂ (goodRow cols) elems ns) :
    materialize elems = Except.ok ns := by
  cases h with
  | nil => rfl
  | @cons e r elems' ns' he hrest =>
    obtain ⟨hsc, hlen, hbound⟩ := he
    have hcast : castRow 0 (natsToRats r) = Except.ok r :=
      castRowAux_ok_of_natCast 0 r hbound 0
    have hrest' : materializeRest (natsToRats r).length 1 elems' =
        Except.ok ns' := by
      rw [natsToRats, List.length_map, hlen]
      exact materializeRest_ok cols elems' ns' hrest 1
    simp only [materialize, hsc, hcast, hrest']

lemma materializeRest_jagged (cols : Nat) (e : OuterElem)
    (post : List OuterElem) (xs : List ℚ)
    (he : e.rowScalars = some xs) (hlen : xs.length ≠ cols) :
    ∀ (pre : List OuterElem) (i : Nat),
      (∀ p ∈ pre, ∃ ys, p.rowScalars = some ys ∧ ys.length = cols ∧ castableRow ys) →
      materializeRest cols i (pre ++ e :: post) =
        Except.error (ErrorKind.jagged (i + pre.length) cols xs.length) := by
  intro pre
  induction pre with
  | nil =>
    intro i _
    simp only [List.nil_append, materializeRest, materializeRow, he]
    rw [if_neg hlen]
    simp
  | cons p pre' ih =>
    intro i hpre
    obtain ⟨ys, hys, hyslen, hcast⟩ := hpre p (List.mem_cons_self p pre')
    obtain ⟨ns, hns⟩ := castRowAux_ok_of_castable i ys hcast 0
    have hrec := ih (i + 1) (fun q hq => hpre q (List.mem_cons_of_mem p hq))
    have harith : i + 1 + pre'.length = i + (p :: pre').length := by
      simp only [List.length_cons]
      omega
    rw [harith] at hrec
    simp only [List.cons_append, materializeRest, materializeRow, hys]
    rw [if_pos hyslen]
    simp only [castRow, hns, List.append_eq, hrec]

lemma materializeRest_castError (cols : Nat) (elems : List OuterElem) :
    ∀ i,
      (∀ e ∈ elems, ∃ ys, e.rowScalars = some ys ∧ ys.length = cols) →
      (∃ e ∈ elems, ∃ ys, e.rowScalars = some ys ∧ ∃ x ∈ ys, safeCast x = none) →
      ∃ (v : ℚ) (k c : Nat),
        materializeRest cols i elems = Except.error (ErrorKind.castError v (i + k) c) ∧
        safeCast v = none ∧
        ∃ e ys, elems[k]? = some e ∧ e.rowScalars = some ys ∧ ys[c]? = some v := by
  induction elems with
  | nil =>
    intro i _ hbad
    simp at hbad
  | cons e rest ih =>
    intro i hshape hbad
    obtain ⟨ys, hys, hyslen⟩ := hshape e (List.mem_cons_self e rest)
    by_cases hrow : ∃ x ∈ ys, safeCast x = none
    · obtain ⟨v, c, hget, hnone, herr⟩ := castRowAux_error_of_bad i ys hrow 0
      rw [Nat.zero_add] at herr
      refine ⟨v, 0, c, ?_, hnone, e, ys, by simp, hys, hget⟩
      rw [Nat.add_zero]
      simp only [materializeRest, materializeRow, hys]
      rw [if_pos hyslen]
      simp only [castRow, herr]
    · have hcast : castableRow ys := by
        intro x hx
        rcases hsc : safeCast x with _ | n
        · exact absurd ⟨x, hx, hsc⟩ hrow
        · simp
      obtain ⟨ns, hns⟩ := castRowAux_ok_of_castable i ys hcast 0
      have hbad' : ∃ e' ∈ rest, ∃ ys', e'.rowScalars = some ys' ∧
          ∃ x ∈ ys', safeCast x = none := by
        rcases hbad with ⟨e', he', ys', hys', hb⟩
        rcases List.mem_cons.mp he' with rfl | h'
        · rw [hys] at hys'
          rw [Option.some.inj hys'] at hrow
          exact absurd hb hrow
        · exact ⟨e', h', ys', hys', hb⟩
      obtain ⟨v, k, c, herr, hnone, e', ys', hget', hys', hc⟩ :=
        ih (i + 1) (fun q hq => hshape q (List.mem_cons_of_mem e hq)) hbad'
      have harith : i + 1 + k = i + (k + 1) := by omega
      rw [harith] at herr
      refine ⟨v, k + 1, c, ?_, hnone, e', ys', by simpa using hget', hys', hc⟩
      simp only [materializeRest, materializeRow, hys]
      rw [if_pos hyslen]
      simp only [castRow, hns, herr]

lemma materialize_castError (elems : List OuterElem) (cols : Nat)
    (hshape : ∀ e ∈ elems, ∃ ys, e.rowScalars = some ys ∧ ys.length = cols)
    (hbad : ∃ e ∈ elems, ∃ ys, e.rowScalars = some ys ∧ ∃ x ∈ ys, safeCast x = none) :
    ∃ (v : ℚ) (k c : Nat),
      materialize elems = Except.error (ErrorKind.castError v k c) ∧
      safeCast v = none ∧
      ∃ e ys, elems[k]? = some e ∧ e.rowScalars = some ys ∧ ys[c]? = some v := by
  cases elems with
  | nil => simp at hbad
  | cons e rest =>
    obtain ⟨ys, hys, hyslen⟩ := hshape e (List.mem_cons_self e rest)
    by_cases hrow : ∃ x ∈ ys, safeCast x = none
    · obtain ⟨v, c, hget, hnone, herr⟩ := castRowAux_error_of_bad 0 ys hrow 0
      rw [Nat.zero_add] at herr
      refine ⟨v, 0, c, ?_, hnone, e, ys, by simp, hys, hget⟩
      simp only [materialize, hys, castRow, herr]
    · have hcast : castableRow ys := by
        intro x hx
        rcases hsc : safeCast x with _ | n
        · exact absurd ⟨x, hx, hsc⟩ hrow
        · simp
      obtain ⟨ns, hns⟩ := castRowAux_ok_of_castable 0 ys hcast 0
      have hbad' : ∃ e' ∈ rest, ∃ ys', e'.rowScalars = some ys' ∧
          ∃ x ∈ ys', safeCast x = none := by
        rcases hbad with ⟨e', he', ys', hys', hb⟩
        rcases List.mem_cons.mp he' with rfl | h'
        · rw [hys] at hys'
          rw [Option.some.inj hys'] at hrow
          exact absurd hb hrow
        · exact ⟨e', h', ys', hys', hb⟩
      obtain ⟨v, k, c, herr, hnone, e', ys', hget', hys', hc⟩ :=
        materializeRest_castError cols rest 1
          (fun q hq => hshape q (List.mem_cons_of_mem e hq)) hbad'
      rw [← hyslen] at herr
      have harith : 1 + k = k + 1 := by omega
      rw [harith] at herr
      refine ⟨v, k + 1, c, ?_, hnone, e', ys', by simpa using hget', hys', hc⟩
      simp only [materialize, hys, castRow, hns, herr]

lemma castScalar_ok_iff (i j : Nat) (x : ℚ) (n : Nat) :
    castScalar i j x = Except.ok n ↔ safeCast x = some n := by
  unfold castScalar
  rcases hs : safeCast x with _ | m <;> simp

lemma castScalar_error_of_none (i j : Nat) (x : ℚ) (hx : safeCast x = none) :
    castScalar i j x = Except.error (ErrorKind.castError x i j) := by
  unfold castScalar
  rw [hx]

lemma seqRows_good (cols : Nat) : ∀ (data : List (List Nat)),
    (∀ r ∈ data, r.length = cols) → (∀ r ∈ data, ∀ v ∈ r, v < U32_BOUND) →
    List.Forall₂ (goodRow cols) (data.map fun r => OuterElem.seqRow (natsToRats r)) data := by
  intro data
  induction data with
  | nil =>
    intro _ _
    exact List.Forall₂.nil
  | cons r rest ih =>
    intro hrect hbound
    refine List.Forall₂.cons ⟨rfl, ?_, hbound r (List.mem_cons_self r rest)⟩
      (ih (fun q hq => hrect q (List.mem_cons_of_mem r hq))
        (fun q hq => hbound q (List.mem_cons_of_mem r hq)))
    exact hrect r (List.mem_cons_self r rest)

lemma safeCast_intCast (z : ℤ) (h0 : 0 ≤ z) (h1 : z < (U32_BOUND : ℤ)) :
    safeCast (z : ℚ) = some z.toNat := by
  refine (safeCast_eq_some_iff _ _).mpr ⟨?_, by omega⟩
  rw [show ((z.toNat : ℕ) : ℚ) = ((z.toNat : ℤ) : ℚ) by push_cast; ring,
    Int.toNat_of_nonneg h0]

lemma intsToRats_forall_two (zs : List ℤ)
    (h : ∀ z ∈ zs, 0 ≤ z ∧ z < (U32_BOUND : ℤ)) :
    List.Forall₂ (fun x n => safeCast x = some n) (intsToRats zs)
      (zs.map Int.toNat) := by
  induction zs with
  | nil => exact List.Forall₂.nil
  | cons z zs ih =>
    obtain ⟨h0, h1⟩ := h z (List.mem_cons_self z zs)
    exact List.Forall₂.cons (safeCast_intCast z h0 h1)
      (ih fun w hw => h w (List.mem_cons_of_mem z hw))

lemma materializeRowInstr_eq (cols i : Nat) (e : InstrElem) :
    materializeRowInstr cols i e = materializeRow cols i e.consume := by
  cases e <;> rfl

lemma materializeRestInstr_eq (cols : Nat) : ∀ (es : List InstrElem) (i : Nat),
    materializeRestInstr cols i es =
      materializeRest cols i (es.map InstrElem.consume) := by
  intro es
  induction es with
  | nil => intro i; rfl
  | cons e rest ih =>
    intro i
    simp only [materializeRestInstr, List.map_cons, materializeRest,
      materializeRowInstr_eq, ih (i + 1)]

lemma materializeInstr_eq (es : List InstrElem) :
    materializeInstr es = materialize (es.map InstrElem.consume) := by
  cases es with
  | nil => rfl
  | cons e rest =>
    cases e <;>
      simp only [materializeInstr, List.map_cons, materialize, InstrElem.consume,
        InstrElem.rowScalars, OuterElem.rowScalars, materializeRestInstr_eq]

/-- Claim C1: on a rectangular two-dimensional input of unsigned 32-bit
representable elements, aggregate_rows succeeds and returns a sequence with
one entry per row, entry i being the arithmetic sum of row i. -/
theorem aggregate_rows_row_sums (data : List (List Nat)) (cols : Nat)
    (hrect : ∀ r ∈ data, r.length = cols)
    (hbound : ∀ r ∈ data, ∀ v ∈ r, v < U32_BOUND) :
    aggregateRows (InputValue.nativeBuffer data) = Except.ok (data.map List.sum) ∧
    (data.map List.sum).length = data.length ∧
    ∀ i : Nat, (data.map List.sum)[i]? = (data[i]?).map List.sum := by
  refine ⟨rfl, List.length_map data List.sum, fun i => ?_⟩
  exact List.getElem?_map List.sum data i

/-- Witness for C1 at the concrete input of scenario 1. -/
theorem aggregate_rows_row_sums_witness :
    aggregateRows (InputValue.nativeBuffer [[1, 2, 3], [4, 5, 6]]) =
      Except.ok [6, 15] := by
  have h := (aggregate_rows_row_sums [[1, 2, 3], [4, 5, 6]] 3
    (by decide) (by decide)).1
  rw [h]
  rfl

/-- Claim C2: the Safe-Cast Validator applied to one scalar succeeds exactly
when the scalar is integral-valued and inside the closed range from 0 to
2 ^ 32 - 1, and on success returns the value unchanged (no rounding,
saturation or wrapping); every other scalar is rejected with a CastError
carrying the value and its position. -/
theorem safe_cast_validator_spec (x : ℚ) (i j : Nat) :
    ((∃ n : Nat, castScalar i j x = Except.ok n ∧ (n : ℚ) = x) ↔ integralInRange x) ∧
    (¬ integralInRange x →
      castScalar i j x = Except.error (ErrorKind.castError x i j)) := by
  constructor
  · constructor
    · rintro ⟨n, hok, _⟩
      have hsome : safeCast x = some n := (castScalar_ok_iff i j x n).mp hok
      exact (safeCast_isSome_iff x).mp (by simp [hsome])
    · intro hint
      obtain ⟨n, hn⟩ := Option.isSome_iff_exists.mp ((safeCast_isSome_iff x).mpr hint)
      exact ⟨n, (castScalar_ok_iff i j x n).mpr hn,
        ((safeCast_eq_some_iff x n).mp hn).1⟩
  · intro hint
    have hnone : safeCast x = none := by
      rcases hs : safeCast x with _ | n
      · rfl
      · exact absurd ((safeCast_isSome_iff x).mp (by simp [hs])) hint
    exact castScalar_error_of_none i j x hnone

/-- Witness for C2: the validator rejects 2 ^ 32 with a CastError carrying
the value and position. -/
theorem safe_cast_validator_spec_witness :
    castScalar 0 0 ((2 : ℚ) ^ 32) =
      Except.error (ErrorKind.castError ((2 : ℚ) ^ 32) 0 0) := by
  apply (safe_cast_validator_spec ((2 : ℚ) ^ 32) 0 0).2
  rintro ⟨m, hm, h0, h1⟩
  have hm' : m = 2 ^ 32 := by
    have hcast : ((m : ℤ) : ℚ) = ((2 ^ 32 : ℤ) : ℚ) := by
      rw [hm]
      norm_num
    exact_mod_cast hcast
  have hU : (U32_BOUND : ℤ) = 2 ^ 32 := by norm_num [U32_BOUND]
  rw [hU] at h1
  omega

/-- Claim C4: an input that is a one-dimensional sequence of bare scalars is
rejected with ShapeError WrongRank, expected rank 2, got rank 1. -/
theorem wrong_rank_on_flat_input (elems : List OuterElem) (hne : elems ≠ [])
    (hall : ∀ e ∈ elems, ∃ x, e = OuterElem.scalar x) :
    aggregateRows (InputValue.sequence elems) =
      Except.error (ErrorKind.wrongRank 2 1) := by
  cases elems with
  | nil => exact absurd rfl hne
  | cons e rest =>
    obtain ⟨x, rfl⟩ := hall e (List.mem_cons_self e rest)
    rfl

/-- Witness for C4 at the concrete input of scenario 3. -/
theorem wrong_rank_on_flat_input_witness :
    aggregateRows (InputValue.sequence
        [OuterElem.scalar 1, OuterElem.scalar 2, OuterElem.scalar 3]) =
      Except.error (ErrorKind.wrongRank 2 1) := by
  apply wrong_rank_on_flat_input
  · simp
  · intro e he
    simp only [List.mem_cons, List.not_mem_nil, or_false] at he
    rcases he with rfl | rfl | rfl <;> exact ⟨_, rfl⟩

/-- Claim C6: rows may mix plain sequences, single-pass iterators and typed
one-dimensional buffers; whenever every row yields exactly cols castable
scalars, aggregate_rows succeeds on the materialized path and returns the
row sums. -/
theorem mixed_rows_ok (elems : List OuterElem) (ns : List (List Nat)) (cols : Nat)
    (h : List.Forall₂ (goodRow cols) elems ns) :
    aggregateRows (InputValue.sequence elems) = Except.ok (ns.map List.sum) := by
  have hm := materialize_ok cols elems ns h
  simp only [aggregateRows, dispatch, hm]
  rfl

/-- Witness for C6 at the concrete input of scenario 2: a plain sequence
row, an iterator row and a typed signed 64-bit buffer row. -/
theorem mixed_rows_ok_witness :
    aggregateRows (InputValue.sequence
        [OuterElem.seqRow [1, 2, 3], OuterElem.iterRow [4, 5, 6],
         OuterElem.bufRow [7, 8, 9]]) = Except.ok [6, 15, 24] := by
  have h := mixed_rows_ok
    [OuterElem.seqRow [1, 2, 3], OuterElem.iterRow [4, 5, 6],
     OuterElem.bufRow [7, 8, 9]]
    [[1, 2, 3], [4, 5, 6], [7, 8, 9]] 3
    (List.Forall₂.cons ⟨by decide, by decide, by decide⟩
      (List.Forall₂.cons ⟨by decide, by decide, by decide⟩
        (List.Forall₂.cons ⟨by decide, by decide, by decide⟩ List.Forall₂.nil)))
  rw [h]
  rfl

/-- Claim C7: the zero-copy path and the materialized path are
observationally equivalent; presenting the same logical matrix as a native
buffer or as a generic nested sequence yields identical output. -/
theorem zero_copy_materialized_equiv (data : List (List Nat)) (cols : Nat)
    (hrect : ∀ r ∈ data, r.length = cols)
    (hbound : ∀ r ∈ data, ∀ v ∈ r, v < U32_BOUND) :
    aggregateRows (InputValue.nativeBuffer data) =
      aggregateRows (InputValue.sequence
        (data.map fun r => OuterElem.seqRow (natsToRats r))) := by
  have hm := materialize_ok cols _ data (seqRows_good cols data hrect hbound)
  simp only [aggregateRows, dispatch, hm]
  rfl

/-- Witness for C7 at the matrix of scenario 1. -/
theorem zero_copy_materialized_equiv_witness :
    aggregateRows (InputValue.nativeBuffer [[1, 2, 3], [4, 5, 6]]) =
      aggregateRows (InputValue.sequence
        ([[1, 2, 3], [4, 5, 6]].map fun r => OuterElem.seqRow (natsToRats r))) :=
  zero_copy_materialized_equiv [[1, 2, 3], [4, 5, 6]] 3 (by decide) (by decide)

/-- Counterexample to C3 as universally stated: the input [[1], [2^32, 5]]
contains the non-representable scalar 2^32, yet aggregate_rows fails with a
ShapeError (the divergent row length is detected before the cast is
attempted), not with a CastError. -/
theorem cast_error_not_universal_counterexample :
    (∃ e ∈ [OuterElem.seqRow [1], OuterElem.seqRow [(2 : ℚ) ^ 32, 5]],
        ∃ ys, e.rowScalars = some ys ∧ ∃ x ∈ ys, safeCast x = none) ∧
    aggregateRows (InputValue.sequence
        [OuterElem.seqRow [1], OuterElem.seqRow [(2 : ℚ) ^ 32, 5]]) =
      Except.error (ErrorKind.jagged 1 1 2) ∧
    ∀ (v : ℚ) (r c : Nat),
      aggregateRows (InputValue.sequence
          [OuterElem.seqRow [1], OuterElem.seqRow [(2 : ℚ) ^ 32, 5]]) ≠
        Except.error (ErrorKind.castError v r c) := by
  have hjag : aggregateRows (InputValue.sequence
      [OuterElem.seqRow [1], OuterElem.seqRow [(2 : ℚ) ^ 32, 5]]) =
      Except.error (ErrorKind.jagged 1 1 2) := by decide
  refine ⟨⟨OuterElem.seqRow [(2 : ℚ) ^ 32, 5], by simp, [(2 : ℚ) ^ 32, 5], rfl,
    (2 : ℚ) ^ 32, by simp, by decide⟩, hjag, ?_⟩
  intro v r c h
  rw [hjag] at h
  simp at h

/-- Claim C3 (amended): for every well-shaped input, in which every outer
element yields a row of exactly cols scalars, that contains a scalar not
representable as an unsigned 32-bit integer, aggregate_rows fails with a
CastError whose reported value sits at the reported row and column of the
input and is itself non-castable; no truncated result is returned. -/
theorem cast_error_on_rect_input (elems : List OuterElem) (cols : Nat)
    (hshape : ∀ e ∈ elems, ∃ ys, e.rowScalars = some ys ∧ ys.length = cols)
    (hbad : ∃ e ∈ elems, ∃ ys, e.rowScalars = some ys ∧ ∃ x ∈ ys, safeCast x = none) :
    ∃ (v : ℚ) (k c : Nat),
      aggregateRows (InputValue.sequence elems) =
        Except.error (ErrorKind.castError v k c) ∧
      safeCast v = none ∧
      ∃ e ys, elems[k]? = some e ∧ e.rowScalars = some ys ∧ ys[c]? = some v := by
  obtain ⟨v, k, c, herr, hnone, hrest⟩ := materialize_castError elems cols hshape hbad
  refine ⟨v, k, c, ?_, hnone, hrest⟩
  simp only [aggregateRows, dispatch, herr]
  rfl

/-- Witness for C3 (amended) at the concrete input of scenario 4. -/
theorem cast_error_on_rect_input_witness :
    aggregateRows (InputValue.sequence
        [OuterElem.seqRow [(2 : ℚ) ^ 32, 0, 0], OuterElem.seqRow [0, 0, 0]]) =
      Except.error (ErrorKind.castError ((2 : ℚ) ^ 32) 0 0) ∧
    ∃ (v : ℚ) (k c : Nat),
      aggregateRows (InputValue.sequence
          [OuterElem.seqRow [(2 : ℚ) ^ 32, 0, 0], OuterElem.seqRow [0, 0, 0]]) =
        Except.error (ErrorKind.castError v k c) ∧
      safeCast v = none ∧
      ∃ e ys,
        [OuterElem.seqRow [(2 : ℚ) ^ 32, 0, 0], OuterElem.seqRow [0, 0, 0]][k]? =
          some e ∧ e.rowScalars = some ys ∧ ys[c]? = some v := by
  refine ⟨by decide, cast_error_on_rect_input _ 3 ?_ ?_⟩
  · intro e he
    simp only [List.mem_cons, List.not_mem_nil, or_false] at he
    rcases he with rfl | rfl
    · exact ⟨[(2 : ℚ) ^ 32, 0, 0], rfl, rfl⟩
    · exact ⟨[0, 0, 0], rfl, rfl⟩
  · exact ⟨OuterElem.seqRow [(2 : ℚ) ^ 32, 0, 0], by simp,
      [(2 : ℚ) ^ 32, 0, 0], rfl, (2 : ℚ) ^ 32, by simp, by decide⟩

/-- Counterexample to C5 as universally stated: the input [[2^32, 1], [3]]
has two rows of differing lengths, yet aggregate_rows fails with a CastError
(the non-castable scalar in row 0 is rejected before row 1 is examined), not
with a ShapeError Jagged. -/
theorem jagged_not_universal_counterexample :
    ((2 : Nat) ≠ 1) ∧
    aggregateRows (InputValue.sequence
        [OuterElem.seqRow [(2 : ℚ) ^ 32, 1], OuterElem.seqRow [3]]) =
      Except.error (ErrorKind.castError ((2 : ℚ) ^ 32) 0 0) ∧
    ∀ (r ec gc : Nat),
      aggregateRows (InputValue.sequence
          [OuterElem.seqRow [(2 : ℚ) ^ 32, 1], OuterElem.seqRow [3]]) ≠
        Except.error (ErrorKind.jagged r ec gc) := by
  have hcast : aggregateRows (InputValue.sequence
      [OuterElem.seqRow [(2 : ℚ) ^ 32, 1], OuterElem.seqRow [3]]) =
      Except.error (ErrorKind.castError ((2 : ℚ) ^ 32) 0 0) := by decide
  refine ⟨by decide, hcast, ?_⟩
  intro r ec gc h
  rw [hcast] at h
  simp at h

/-- Claim C5 (amended): whenever some row yields a number of scalars that
differs from the column count fixed by the first row, and every row before
the first divergent one is well formed and castable, aggregate_rows fails
with ShapeError Jagged carrying the divergent row index, the expected column
count and the actual count; no partial result is returned. -/
theorem jagged_on_divergent_row (pre : List OuterElem) (e : OuterElem)
    (post : List OuterElem) (cols : Nat) (xs : List ℚ)
    (hpre : ∀ p ∈ pre, ∃ ys, p.rowScalars = some ys ∧ ys.length = cols ∧ castableRow ys)
    (hne : pre ≠ [])
    (he : e.rowScalars = some xs) (hlen : xs.length ≠ cols) :
    aggregateRows (InputValue.sequence (pre ++ e :: post)) =
      Except.error (ErrorKind.jagged pre.length cols xs.length) := by
  cases pre with
  | nil => exact absurd rfl hne
  | cons p pre' =>
    obtain ⟨ys, hys, hyslen, hcast⟩ := hpre p (List.mem_cons_self p pre')
    obtain ⟨ns, hns⟩ := castRowAux_ok_of_castable 0 ys hcast 0
    have hrest := materializeRest_jagged cols e post xs he hlen pre' 1
      (fun q hq => hpre q (List.mem_cons_of_mem p hq))
    have harith : 1 + pre'.length = (p :: pre').length := by
      simp only [List.length_cons]
      omega
    rw [harith] at hrest
    simp only [List.cons_append, aggregateRows, dispatch, materialize, hys, castRow,
      hns, List.append_eq, hyslen, hrest]
    rfl

/-- Witness for C5 (amended) at the concrete input of scenario 5. -/
theorem jagged_on_divergent_row_witness :
    aggregateRows (InputValue.sequence
        [OuterElem.seqRow [1, 2], OuterElem.seqRow [3, 4, 5]]) =
      Except.error (ErrorKind.jagged 1 2 3) := by
  have hpre : ∀ p ∈ [OuterElem.seqRow [(1 : ℚ), 2]],
      ∃ ys, p.rowScalars = some ys ∧ ys.length = 2 ∧ castableRow ys := by
    intro p hp
    simp only [List.mem_singleton] at hp
    subst hp
    refine ⟨[(1 : ℚ), 2], rfl, rfl, ?_⟩
    intro x hx
    simp only [List.mem_cons, List.not_mem_nil, or_false] at hx
    rcases hx with rfl | rfl <;> decide
  have h := jagged_on_divergent_row [OuterElem.seqRow [(1 : ℚ), 2]]
    (OuterElem.seqRow [3, 4, 5]) [] 2 [3, 4, 5] hpre (by simp) rfl (by decide)
  simpa using h

/-- Claim C10: a row supplied as a typed one-dimensional signed 64-bit
buffer is accepted on the materialized path whenever its values are
representable as unsigned 32-bit integers, despite the element-type
mismatch; the generic path never yields a Borrowed view, and only the
exactly matching native unsigned 32-bit two-dimensional buffer is taken
by reference. -/
theorem int64_row_accepted_borrowed_exact :
    (∀ (zs : List ℤ) (cols i : Nat), zs.length = cols →
      (∀ z ∈ zs, 0 ≤ z ∧ z < (U32_BOUND : ℤ)) →
      materializeRow cols i (OuterElem.bufRow zs) = Except.ok (zs.map Int.toNat)) ∧
    (∀ (elems : List OuterElem) (mv : MatrixView),
      dispatch (InputValue.sequence elems) = Except.ok mv →
      ∃ d, mv = MatrixView.owned d) ∧
    (∀ data : List (List Nat),
      dispatch (InputValue.nativeBuffer data) = Except.ok (MatrixView.borrowed data)) := by
  refine ⟨?_, ?_, fun data => rfl⟩
  · intro zs cols i hlen hrange
    have hsc : (OuterElem.bufRow zs).rowScalars = some (intsToRats zs) := rfl
    have hlen' : (intsToRats zs).length = cols := by
      rw [intsToRats, List.length_map, hlen]
    have hcast : castRowAux i 0 (intsToRats zs) = Except.ok (zs.map Int.toNat) :=
      castRowAux_ok_of_some i (intsToRats zs) (zs.map Int.toNat)
        (intsToRats_forall_two zs hrange) 0
    simp only [materializeRow, hsc, hlen', if_true]
    simp only [castRow, hcast]
  · intro elems mv hok
    rcases hm : materialize elems with err | d
    · rw [show dispatch (InputValue.sequence elems) =
          (materialize elems).map MatrixView.owned from rfl, hm] at hok
      exact absurd hok (by simp [Except.map])
    · rw [show dispatch (InputValue.sequence elems) =
          (materialize elems).map MatrixView.owned from rfl, hm] at hok
      refine ⟨d, ?_⟩
      have : Except.ok (MatrixView.owned d) = Except.ok mv := hok
      exact (Except.ok.inj this).symm

/-- Witness for C10: the typed signed 64-bit row of scenario 2 is accepted
with its values intact, and a native buffer is dispatched as a Borrowed
view over its own data. -/
theorem int64_row_accepted_borrowed_exact_witness :
    materializeRow 3 1 (OuterElem.bufRow [7, 8, 9]) = Except.ok [7, 8, 9] ∧
    dispatch (InputValue.nativeBuffer [[1, 2]]) =
      Except.ok (MatrixView.borrowed [[1, 2]]) := by
  refine ⟨?_, int64_row_accepted_borrowed_exact.2.2 [[1, 2]]⟩
  have h := int64_row_accepted_borrowed_exact.1 [7, 8, 9] 3 1 rfl (by decide)
  rw [h]
  rfl

/-- Claim C9: on the generic path every iterator is consumed exactly once
and a second traversal is never attempted: whenever the single first-pass
observations of the elements form a well-shaped castable matrix,
materialization succeeds, and its result depends only on those first-pass
observations, never on what a restarted traversal would yield. -/
theorem single_pass_materialization (es : List InstrElem) (ns : List (List Nat))
    (cols : Nat)
    (h : List.Forall₂ (goodRow cols) (es.map InstrElem.consume) ns) :
    materializeInstr es = Except.ok ns ∧
    ∀ es' : List InstrElem,
      es.map InstrElem.consume = es'.map InstrElem.consume →
      materializeInstr es = materializeInstr es' := by
  constructor
  · rw [materializeInstr_eq]
    exact materialize_ok cols _ ns h
  · intro es' hobs
    rw [materializeInstr_eq, materializeInstr_eq, hobs]

/-- Witness for C9: an input with a single-pass iterator row materializes
successfully, and replacing the restart behaviour of the iterator (what an
illegal second traversal would see) does not change the result. -/
theorem single_pass_materialization_witness :
    materializeInstr [InstrElem.seqRow [1, 2, 3],
        InstrElem.iterRow ⟨[4, 5, 6], []⟩, InstrElem.bufRow [7, 8, 9]] =
      Except.ok [[1, 2, 3], [4, 5, 6], [7, 8, 9]] ∧
    materializeInstr [InstrElem.seqRow [1, 2, 3],
        InstrElem.iterRow ⟨[4, 5, 6], [9, 9, 9]⟩, InstrElem.bufRow [7, 8, 9]] =
      materializeInstr [InstrElem.seqRow [1, 2, 3],
        InstrElem.iterRow ⟨[4, 5, 6], []⟩, InstrElem.bufRow [7, 8, 9]] := by
  have hf : List.Forall₂ (goodRow 3)
      [OuterElem.seqRow [1, 2, 3], OuterElem.iterRow [4, 5, 6],
       OuterElem.bufRow [7, 8, 9]]
      [[1, 2, 3], [4, 5, 6], [7, 8, 9]] :=
    List.Forall₂.cons ⟨by decide, by decide, by decide⟩
      (List.Forall₂.cons ⟨by decide, by decide, by decide⟩
        (List.Forall₂.cons ⟨by decide, by decide, by decide⟩ List.Forall₂.nil))
  refine ⟨(single_pass_materialization
      [InstrElem.seqRow [1, 2, 3], InstrElem.iterRow ⟨[4, 5, 6], []⟩,
       InstrElem.bufRow [7, 8, 9]] [[1, 2, 3], [4, 5, 6], [7, 8, 9]] 3 hf).1, ?_⟩
  exact (single_pass_materialization
      [InstrElem.seqRow [1, 2, 3], InstrElem.iterRow ⟨[4, 5, 6], [9, 9, 9]⟩,
       InstrElem.bufRow [7, 8, 9]] [[1, 2, 3], [4, 5, 6], [7, 8, 9]] 3 hf).2 _ rfl

end PyO3ArrayLike
